import Mathlib

/-!
# Verification of the MultiVCFAnalyzer MultiQC module

Shallow embedding of `src/multiqc/modules/multivcfanalyzer/multivcfanalyzer.py`.

The module's `__init__` runs a linear pipeline: discover files, `parse_data`
each, `ignore_samples`, raise `UserWarning` when no samples remain, otherwise
write the data file, add summary columns and render two bar charts.

Modelling decisions:
* Python dicts (`self.mvcf_data` and each per-sample record) are ordered
  association lists with CPython dict semantics: assigning to an existing key
  overwrites in place, a new key is appended at the end.
* JSON numbers and the results of Python's `float` are modelled as exact
  rationals (`ℚ`).  Non-finite literals (`nan`, `inf`), digit underscores and
  float overflow are outside the model; no claim touches them.
* `float(v)` on a decoded JSON value: numbers and booleans coerce, strings are
  parsed by the float grammar (raising `ValueError` on failure, which the code
  catches), and `None`, lists and objects raise `TypeError`, which the code
  does *not* catch (`except ValueError` only), so it propagates.
* Host collaborators: `clean_s_name` is an abstract function of the sample
  name and the file's `root` directory; `ignore_samples` filters the table by
  an abstract predicate on sample names; logging and `add_data_source` have no
  effect on the data and are not modelled.
-/

namespace MultiVCF

/-- A decoded JSON value as produced by Python's `json.load`.  Objects keep
their fields in document order, matching CPython dict iteration order. -/
inductive JsonVal : Type where
  | num (q : ℚ)
  | str (s : String)
  | bool (b : Bool)
  | null
  | arr (xs : List JsonVal)
  | obj (fields : List (String × JsonVal))

/-- A value as stored in `self.mvcf_data[s_clean][k]`: either the result of a
successful `float(v)` call, or the original string when `float` raised
`ValueError`. -/
inductive Stored : Type where
  | num (q : ℚ)
  | str (s : String)
deriving DecidableEq, Repr

/-- Exceptions that can escape the `try: float(v) except ValueError` block or
the field iteration. -/
inductive PyExc : Type where
  | typeError
  | attributeError
deriving DecidableEq, Repr

/-! ## Ordered dictionaries (CPython semantics) -/

/-- The keys of a dict, in iteration order. -/
def keys {α : Type} (d : List (String × α)) : List String :=
  d.map Prod.fst

/-- Dict lookup `d[k]` (as an option). -/
def dictGet {α : Type} (d : List (String × α)) (k : String) : Option α :=
  (d.find? (fun p => p.1 = k)).map Prod.snd

/-- Dict assignment `d[k] = v`: overwrite in place when the key exists (a
dict holds each key at most once, so replacing the first occurrence is
replacing the occurrence), append at the end otherwise (CPython
insertion-order semantics). -/
def dictSet {α : Type} (d : List (String × α)) (k : String) (v : α) :
    List (String × α) :=
  match d with
  | [] => [(k, v)]
  | p :: rest => if p.1 = k then (k, v) :: rest else p :: dictSet rest k v

/-- The sample table `self.mvcf_data`. -/
abbrev Table := List (String × List (String × Stored))

/-! ## Python `float` on a string

`parseFloat` embeds the finite-decimal part of CPython's string-to-float
grammar: optional surrounding whitespace, an optional sign, a mantissa that is
`digits`, `digits.digits`, `.digits` or `digits.`, and an optional exponent
`(e|E)(+|-)?digits`.  `none` models `float` raising `ValueError`. -/

/-- Numeric value of a digit string (most significant first). -/
def natOfDigits (ds : List Char) : Nat :=
  ds.foldl (fun acc c => acc * 10 + (c.toNat - '0'.toNat)) 0

/-- Split off the longest leading run of decimal digits. -/
def spanDigits : List Char → List Char × List Char
  | [] => ([], [])
  | c :: cs =>
    if c.isDigit then
      let (ds, rest) := spanDigits cs
      (c :: ds, rest)
    else ([], c :: cs)

/-- The rational `±m * 10^e10`, assembled with `mkRat` so that the value is
built by integer arithmetic alone. -/
def ratOfParts (neg : Bool) (m : Nat) (e10 : Int) : ℚ :=
  mkRat ((if neg then -(m : Int) else (m : Int)) * 10 ^ e10.toNat)
    (10 ^ (-e10).toNat)

/-- Parse the optional exponent suffix after a mantissa `±m * 10^e10`; the
input must be consumed fully. -/
def parseExpSuffix (cs : List Char) (neg : Bool) (m : Nat) (e10 : Int) :
    Option ℚ :=
  match cs with
  | [] => some (ratOfParts neg m e10)
  | c :: rest =>
    if c = 'e' ∨ c = 'E' then
      let (negExp, rest1) :=
        match rest with
        | '+' :: r => (false, r)
        | '-' :: r => (true, r)
        | r => (false, r)
      let (ds, rest2) := spanDigits rest1
      if ds.isEmpty ∨ ¬ rest2.isEmpty then none
      else
        let e : Int := natOfDigits ds
        some (ratOfParts neg m (e10 + if negExp then -e else e))
    else none

/-- Parse an unsigned float literal (mantissa plus optional exponent); `neg`
records a sign already consumed. -/
def parseUnsigned (neg : Bool) (cs : List Char) : Option ℚ :=
  let (ip, rest) := spanDigits cs
  match rest with
  | '.' :: rest1 =>
    let (fp, rest2) := spanDigits rest1
    if ip.isEmpty ∧ fp.isEmpty then none
    else parseExpSuffix rest2 neg (natOfDigits (ip ++ fp)) (-(fp.length : Int))
  | _ =>
    if ip.isEmpty then none else parseExpSuffix rest neg (natOfDigits ip) 0

/-- Python `float(s)` for a string `s`: `some q` on success, `none` when
`float` raises `ValueError`. -/
def parseFloat (s : String) : Option ℚ :=
  let cs := (s.data.dropWhile Char.isWhitespace).reverse.dropWhile
      Char.isWhitespace |>.reverse
  match cs with
  | '+' :: rest => parseUnsigned false rest
  | '-' :: rest => parseUnsigned true rest
  | rest => parseUnsigned false rest

/-- Python `float(v)` on a decoded JSON value `v`, inside
`try: ... float(v) except ValueError: ... v`: numbers and booleans coerce;
for a string, a `ValueError` is caught and the original string is kept;
`None`, lists and objects raise `TypeError`, which `except ValueError` does
not catch. -/
def coerceVal (v : JsonVal) : Except PyExc Stored :=
  match v with
  | .num q => .ok (.num q)
  | .bool b => .ok (.num (if b then 1 else 0))
  | .str s =>
    match parseFloat s with
    | some q => .ok (.num q)
    | none => .ok (.str s)
  | .null => .error .typeError
  | .arr _ => .error .typeError
  | .obj _ => .error .typeError

/-- The inner loop `for k, v in data[s_name].items()`: build up the
per-sample record field by field; an uncaught exception stops the loop and
leaves the record as mutated so far. -/
def coerceFields (fields : List (String × JsonVal))
    (acc : List (String × Stored)) : List (String × Stored) × Option PyExc :=
  match fields with
  | [] => (acc, none)
  | (k, v) :: rest =>
    match coerceVal v with
    | .ok sv => coerceFields rest (dictSet acc k sv)
    | .error e => (acc, some e)

/-- The outer loop `for s_name in data` of `parse_data`: skip `"metadata"`,
clean the sample name, set `self.mvcf_data[s_clean] = dict()` and fill it.
`data[s_name].items()` on a non-object raises `AttributeError` (after the
empty dict was already assigned); an uncaught exception from the inner loop
propagates with the table as mutated so far. -/
def processSamples (clean : String → String → String) (root : String)
    (data : List (String × JsonVal)) (tbl : Table) : Table × Option PyExc :=
  match data with
  | [] => (tbl, none)
  | (sName, v) :: rest =>
    if sName = "metadata" then processSamples clean root rest tbl
    else
      match v with
      | .obj fields =>
        let tbl2 := dictSet (dictSet tbl (clean sName root) [])
          (clean sName root) (coerceFields fields []).1
        match (coerceFields fields []).2 with
        | none => processSamples clean root rest tbl2
        | some e => (tbl2, some e)
      | _ => (dictSet tbl (clean sName root) [], some .attributeError)

/-- A discovered log file: its `root` directory (passed to `clean_s_name`)
and its decoded content — `none` models `json.load` raising, `some data` a
successfully decoded top-level object. -/
structure FileF : Type where
  root : String
  content : Option (List (String × JsonVal))

/-- `parse_data(self, f)`: on decode failure log and `return` (the table is
untouched); otherwise run the sample loop.  The second component is an
exception escaping `parse_data`, `none` when it returns normally. -/
def parse_data (clean : String → String → String) (f : FileF)
    (tbl : Table) : Table × Option PyExc :=
  match f.content with
  | none => (tbl, none)
  | some data => processSamples clean f.root data tbl

/-- The discovery loop `for f in self.find_log_files(...): self.parse_data(f)`:
files are parsed in order; an uncaught exception aborts the loop. -/
def parseAll (clean : String → String → String) (files : List FileF)
    (tbl : Table) : Table × Option PyExc :=
  match files with
  | [] => (tbl, none)
  | f :: rest =>
    match parse_data clean f tbl with
    | (tbl1, none) => parseAll clean rest tbl1
    | (tbl1, some e) => (tbl1, some e)

/-- `self.ignore_samples(self.mvcf_data)`: remove the samples matched by the
caller-configured ignore rules, modelled as a predicate on sample names. -/
def ignore_samples (ignore : String → Bool) (tbl : Table) : Table :=
  tbl.filter (fun p => !ignore p.1)

/-- How a run of `MultiqcModule.__init__` ends: `skipModule` is the
`raise UserWarning` consumed by the host, `completed` a normal return, and
`uncaught e` an exception escaping `parse_data`. -/
inductive Outcome : Type where
  | skipModule
  | completed
  | uncaught (e : PyExc)
deriving DecidableEq, Repr

/-- The host calls issued after the sample check, in order:
`write_data_file`, `general_stats_addcols` (summary columns) and the two
`bargraph.plot`/`add_section` renders. -/
inductive Emit : Type where
  | dataFile
  | summaryCols
  | barplotReads
  | barplotSnps
deriving DecidableEq, Repr

/-- The observable result of `MultiqcModule.__init__`. -/
structure RunResult : Type where
  table : Table
  outcome : Outcome
  emits : List Emit
deriving DecidableEq, Repr

/-- `MultiqcModule.__init__`: parse every discovered file, filter samples,
`raise UserWarning` when the table is empty (before any write or render),
otherwise write the data file, add summary columns and render both bar
charts. -/
def runModule (clean : String → String → String) (ignore : String → Bool)
    (files : List FileF) : RunResult :=
  match parseAll clean files [] with
  | (tbl, some e) => ⟨tbl, .uncaught e, []⟩
  | (tbl, none) =>
    let tbl1 := ignore_samples ignore tbl
    if tbl1.isEmpty then ⟨tbl1, .skipModule, []⟩
    else ⟨tbl1, .completed,
      [.dataFile, .summaryCols, .barplotReads, .barplotSnps]⟩

/-- A trivial stand-in for the host's `clean_s_name` used in concrete
evaluations: the identity on the sample name. -/
def cleanId : String → String → String := fun s _ => s

/-- Re-read a stored value, as `json.load` would hand it back: the input on
which `float` is re-attempted when a stored table is parsed again. -/
def storedToJson (v : Stored) : JsonVal :=
  match v with
  | .num q => .num q
  | .str s => .str s

/-- The worked example from the spec: the decoded content
`{"S1": {"NR Aut": "100", "NrX": "5.5", "noCall": "low"}}`. -/
def exampleFile : FileF :=
  ⟨"r", some [("S1", .obj [("NR Aut", .str "100"), ("NrX", .str "5.5"),
    ("noCall", .str "low")])]⟩

/-! ## Dictionary lemmas -/

@[simp]
theorem keys_nil {α : Type} : keys ([] : List (String × α)) = [] := rfl

@[simp]
theorem keys_cons {α : Type} (p : String × α) (d : List (String × α)) :
    keys (p :: d) = p.1 :: keys d := rfl

@[simp]
theorem dictGet_nil {α : Type} (k : String) :
    dictGet ([] : List (String × α)) k = none := rfl

theorem dictGet_cons {α : Type} (p : String × α) (d : List (String × α))
    (k : String) :
    dictGet (p :: d) k = if p.1 = k then some p.2 else dictGet d k := by
  by_cases h : p.1 = k <;> simp [dictGet, List.find?, h]

theorem dictSet_nil {α : Type} (k : String) (v : α) :
    dictSet ([] : List (String × α)) k v = [(k, v)] := rfl

theorem dictSet_cons {α : Type} (p : String × α) (d : List (String × α))
    (k : String) (v : α) :
    dictSet (p :: d) k v =
      if p.1 = k then (k, v) :: d else p :: dictSet d k v := rfl

theorem dictGet_dictSet {α : Type} (d : List (String × α)) (k k' : String)
    (v : α) :
    dictGet (dictSet d k v) k' = if k' = k then some v else dictGet d k' := by
  induction d with
  | nil =>
    rw [dictSet_nil, dictGet_cons]
    by_cases h : k = k'
    · subst h; simp
    · have h' : ¬ k' = k := fun hh => h hh.symm
      simp [h, h']
  | cons p rest ih =>
    rw [dictSet_cons]
    by_cases hp : p.1 = k
    · rw [if_pos hp, dictGet_cons, dictGet_cons]
      by_cases h : k = k'
      · subst h; simp
      · have h' : ¬ k' = k := fun hh => h hh.symm
        have hpk : ¬ p.1 = k' := hp ▸ h
        simp [h, h', hpk]
    · rw [if_neg hp, dictGet_cons, dictGet_cons, ih]
      by_cases h : p.1 = k'
      · have h' : ¬ k' = k := fun hh => hp (hh ▸ h)
        simp [h, h']
      · simp [h]

theorem keys_dictSet {α : Type} (d : List (String × α)) (k : String)
    (v : α) :
    keys (dictSet d k v) =
      if k ∈ keys d then keys d else keys d ++ [k] := by
  induction d with
  | nil => simp [dictSet_nil]
  | cons p rest ih =>
    rw [dictSet_cons]
    by_cases hp : p.1 = k
    · have hmem : k ∈ keys (p :: rest) := by
        rw [keys_cons]
        exact hp ▸ List.mem_cons_self p.1 _
      rw [if_pos hp, if_pos hmem, keys_cons, keys_cons, hp]
    · have hne : ¬ k = p.1 := fun h => hp h.symm
      rw [if_neg hp, keys_cons]
      by_cases hm : k ∈ keys rest
      · have hmem : k ∈ keys (p :: rest) := by
          rw [keys_cons]; exact List.mem_cons_of_mem _ hm
        rw [if_pos hmem, ih, if_pos hm, keys_cons]
      · have hmem : k ∉ keys (p :: rest) := by
          rw [keys_cons]
          exact fun h => (List.mem_cons.mp h).elim hne hm
        rw [if_neg hmem, ih, if_neg hm, keys_cons]
        simp

theorem mem_keys_dictSet {α : Type} (d : List (String × α)) (k c : String)
    (v : α) :
    c ∈ keys (dictSet d k v) ↔ c = k ∨ c ∈ keys d := by
  rw [keys_dictSet]
  by_cases hm : k ∈ keys d
  · rw [if_pos hm]
    constructor
    · exact fun h => Or.inr h
    · rintro (rfl | h); exacts [hm, h]
  · rw [if_neg hm]
    simp [or_comm]

theorem nodup_keys_dictSet {α : Type} (d : List (String × α)) (k : String)
    (v : α) (hd : (keys d).Nodup) : (keys (dictSet d k v)).Nodup := by
  rw [keys_dictSet]
  by_cases hm : k ∈ keys d
  · rwa [if_pos hm]
  · rw [if_neg hm]
    refine List.Nodup.append hd (List.nodup_singleton k) ?_
    intro a ha hb
    rw [List.mem_singleton] at hb
    exact hm (hb ▸ ha)

theorem keys_prefix_dictSet {α : Type} (d : List (String × α)) (k : String)
    (v : α) : keys d <+: keys (dictSet d k v) := by
  rw [keys_dictSet]
  by_cases hm : k ∈ keys d
  · rw [if_pos hm]
  · rw [if_neg hm]
    exact ⟨[k], rfl⟩

theorem dictGet_dictSet_congr {α : Type} (d d' : List (String × α))
    (k c : String) (v : α) (h : dictGet d c = dictGet d' c) :
    dictGet (dictSet d k v) c = dictGet (dictSet d' k v) c := by
  rw [dictGet_dictSet, dictGet_dictSet]
  by_cases hc : c = k
  · rw [if_pos hc, if_pos hc]
  · rw [if_neg hc, if_neg hc]
    exact h

/-! ## Structural lemmas about the sample loop -/

theorem processSamples_snd_indep (clean : String → String → String)
    (root : String) (data : List (String × JsonVal)) :
    ∀ t t' : Table, (processSamples clean root data t).2 =
      (processSamples clean root data t').2 := by
  induction data with
  | nil => intro t t'; rfl
  | cons p rest ih =>
    intro t t'
    obtain ⟨sName, v⟩ := p
    by_cases hm : sName = "metadata"
    · simp only [processSamples, if_pos hm]
      exact ih t t'
    · cases v with
      | obj fields =>
        simp only [processSamples, if_neg hm]
        split
        · exact ih _ _
        · rfl
      | num q => simp only [processSamples, if_neg hm]
      | str s => simp only [processSamples, if_neg hm]
      | bool b => simp only [processSamples, if_neg hm]
      | null => simp only [processSamples, if_neg hm]
      | arr xs => simp only [processSamples, if_neg hm]

theorem dictGet_processSamples_congr (clean : String → String → String)
    (root c : String) (data : List (String × JsonVal)) :
    ∀ t t' : Table, dictGet t c = dictGet t' c →
      dictGet (processSamples clean root data t).1 c =
        dictGet (processSamples clean root data t').1 c := by
  induction data with
  | nil => intro t t' h; exact h
  | cons p rest ih =>
    intro t t' h
    obtain ⟨sName, v⟩ := p
    by_cases hm : sName = "metadata"
    · simp only [processSamples, if_pos hm]
      exact ih t t' h
    · cases v with
      | obj fields =>
        simp only [processSamples, if_neg hm]
        have h2 := dictGet_dictSet_congr _ _ (clean sName root) c
          (coerceFields fields []).1
          (dictGet_dictSet_congr _ _ (clean sName root) c [] h)
        split
        · exact ih _ _ h2
        · exact h2
      | num q =>
        simp only [processSamples, if_neg hm]
        exact dictGet_dictSet_congr _ _ _ _ _ h
      | str s =>
        simp only [processSamples, if_neg hm]
        exact dictGet_dictSet_congr _ _ _ _ _ h
      | bool b =>
        simp only [processSamples, if_neg hm]
        exact dictGet_dictSet_congr _ _ _ _ _ h
      | null =>
        simp only [processSamples, if_neg hm]
        exact dictGet_dictSet_congr _ _ _ _ _ h
      | arr xs =>
        simp only [processSamples, if_neg hm]
        exact dictGet_dictSet_congr _ _ _ _ _ h

theorem keys_prefix_processSamples (clean : String → String → String)
    (root : String) (data : List (String × JsonVal)) :
    ∀ tbl : Table, keys tbl <+: keys (processSamples clean root data tbl).1 := by
  induction data with
  | nil => intro tbl; exact List.prefix_refl _
  | cons p rest ih =>
    intro tbl
    obtain ⟨sName, v⟩ := p
    by_cases hm : sName = "metadata"
    · simp only [processSamples, if_pos hm]
      exact ih tbl
    · cases v with
      | obj fields =>
        simp only [processSamples, if_neg hm]
        have h1 : keys tbl <+:
            keys (dictSet (dictSet tbl (clean sName root) [])
              (clean sName root) (coerceFields fields []).1) :=
          (keys_prefix_dictSet tbl _ _).trans (keys_prefix_dictSet _ _ _)
        split
        · exact h1.trans (ih _)
        · exact h1
      | num q =>
        simp only [processSamples, if_neg hm]
        exact keys_prefix_dictSet tbl _ _
      | str s =>
        simp only [processSamples, if_neg hm]
        exact keys_prefix_dictSet tbl _ _
      | bool b =>
        simp only [processSamples, if_neg hm]
        exact keys_prefix_dictSet tbl _ _
      | null =>
        simp only [processSamples, if_neg hm]
        exact keys_prefix_dictSet tbl _ _
      | arr xs =>
        simp only [processSamples, if_neg hm]
        exact keys_prefix_dictSet tbl _ _

theorem nodup_keys_processSamples (clean : String → String → String)
    (root : String) (data : List (String × JsonVal)) :
    ∀ tbl : Table, (keys tbl).Nodup →
      (keys (processSamples clean root data tbl).1).Nodup := by
  induction data with
  | nil => intro tbl h; exact h
  | cons p rest ih =>
    intro tbl h
    obtain ⟨sName, v⟩ := p
    by_cases hm : sName = "metadata"
    · simp only [processSamples, if_pos hm]
      exact ih tbl h
    · cases v with
      | obj fields =>
        simp only [processSamples, if_neg hm]
        have h2 : (keys (dictSet (dictSet tbl (clean sName root) [])
            (clean sName root) (coerceFields fields []).1)).Nodup :=
          nodup_keys_dictSet _ _ _ (nodup_keys_dictSet _ _ _ h)
        split
        · exact ih _ h2
        · exact h2
      | num q =>
        simp only [processSamples, if_neg hm]
        exact nodup_keys_dictSet _ _ _ h
      | str s =>
        simp only [processSamples, if_neg hm]
        exact nodup_keys_dictSet _ _ _ h
      | bool b =>
        simp only [processSamples, if_neg hm]
        exact nodup_keys_dictSet _ _ _ h
      | null =>
        simp only [processSamples, if_neg hm]
        exact nodup_keys_dictSet _ _ _ h
      | arr xs =>
        simp only [processSamples, if_neg hm]
        exact nodup_keys_dictSet _ _ _ h

theorem processSamples_cons_metadata (clean : String → String → String)
    (root sName : String) (v : JsonVal) (rest : List (String × JsonVal))
    (tbl : Table) (h : sName = "metadata") :
    processSamples clean root ((sName, v) :: rest) tbl =
      processSamples clean root rest tbl := by
  simp only [processSamples, if_pos h]

theorem processSamples_cons_obj_none (clean : String → String → String)
    (root sName : String) (fields : List (String × JsonVal))
    (rest : List (String × JsonVal)) (tbl : Table)
    (hm : sName ≠ "metadata") (he : (coerceFields fields []).2 = none) :
    processSamples clean root ((sName, JsonVal.obj fields) :: rest) tbl =
      processSamples clean root rest
        (dictSet (dictSet tbl (clean sName root) [])
          (clean sName root) (coerceFields fields []).1) := by
  simp only [processSamples, if_neg hm, he]

theorem processSamples_cons_obj_some (clean : String → String → String)
    (root sName : String) (fields : List (String × JsonVal))
    (rest : List (String × JsonVal)) (tbl : Table) (e : PyExc)
    (hm : sName ≠ "metadata") (he : (coerceFields fields []).2 = some e) :
    processSamples clean root ((sName, JsonVal.obj fields) :: rest) tbl =
      (dictSet (dictSet tbl (clean sName root) [])
        (clean sName root) (coerceFields fields []).1, some e) := by
  simp only [processSamples, if_neg hm, he]

theorem mem_keys_processSamples (clean : String → String → String)
    (root c : String) (data : List (String × JsonVal)) :
    ∀ tbl : Table, (processSamples clean root data tbl).2 = none →
      (c ∈ keys (processSamples clean root data tbl).1 ↔
        c ∈ keys tbl ∨
          ∃ p ∈ data, p.1 ≠ "metadata" ∧ clean p.1 root = c) := by
  induction data with
  | nil =>
    intro tbl _
    simp [processSamples]
  | cons p rest ih =>
    intro tbl hok
    obtain ⟨sName, v⟩ := p
    by_cases hm : sName = "metadata"
    · rw [processSamples_cons_metadata clean root sName v rest tbl hm] at hok ⊢
      rw [ih tbl hok]
      subst hm
      simp
    · cases v with
      | obj fields =>
        rcases he : (coerceFields fields []).2 with _ | e
        · rw [processSamples_cons_obj_none clean root sName fields rest tbl
            hm he] at hok ⊢
          rw [ih _ hok]
          constructor
          · rintro (h1 | h1)
            · rcases (mem_keys_dictSet _ _ _ _).mp h1 with h2 | h2
              · exact Or.inr ⟨(sName, JsonVal.obj fields),
                  List.mem_cons_self _ _, hm, h2.symm⟩
              · rcases (mem_keys_dictSet _ _ _ _).mp h2 with h3 | h3
                · exact Or.inr ⟨(sName, JsonVal.obj fields),
                    List.mem_cons_self _ _, hm, h3.symm⟩
                · exact Or.inl h3
            · rcases h1 with ⟨q, hq, hq1, hq2⟩
              exact Or.inr ⟨q, List.mem_cons_of_mem _ hq, hq1, hq2⟩
          · rintro (h1 | h1)
            · exact Or.inl ((mem_keys_dictSet _ _ _ _).mpr
                (Or.inr ((mem_keys_dictSet _ _ _ _).mpr (Or.inr h1))))
            · rcases h1 with ⟨q, hq, hq1, hq2⟩
              rcases List.mem_cons.mp hq with h2 | h2
              · subst h2
                exact Or.inl ((mem_keys_dictSet _ _ _ _).mpr
                  (Or.inl hq2.symm))
              · exact Or.inr ⟨q, h2, hq1, hq2⟩
        · rw [processSamples_cons_obj_some clean root sName fields rest tbl
            e hm he] at hok
          simp at hok
      | num q =>
        simp only [processSamples, if_neg hm] at hok
        simp at hok
      | str s =>
        simp only [processSamples, if_neg hm] at hok
        simp at hok
      | bool b =>
        simp only [processSamples, if_neg hm] at hok
        simp at hok
      | null =>
        simp only [processSamples, if_neg hm] at hok
        simp at hok
      | arr xs =>
        simp only [processSamples, if_neg hm] at hok
        simp at hok

theorem dictGet_processSamples_of_mem (clean : String → String → String)
    (root c : String) (data : List (String × JsonVal)) :
    ∀ t t' : Table,
      (processSamples clean root data t).2 = none →
      (∃ sName fields, (sName, JsonVal.obj fields) ∈ data ∧
        sName ≠ "metadata" ∧ clean sName root = c) →
      dictGet (processSamples clean root data t).1 c =
        dictGet (processSamples clean root data t').1 c := by
  induction data with
  | nil =>
    intro t t' _ hocc
    rcases hocc with ⟨s, fl, hmem, _, _⟩
    exact absurd hmem (List.not_mem_nil _)
  | cons p rest ih =>
    intro t t' hok hocc
    obtain ⟨sName, v⟩ := p
    by_cases hm : sName = "metadata"
    · rw [processSamples_cons_metadata clean root sName v rest t hm] at hok ⊢
      rw [processSamples_cons_metadata clean root sName v rest t' hm]
      refine ih t t' hok ?_
      rcases hocc with ⟨s, fl, hmem, hs, hc⟩
      rcases List.mem_cons.mp hmem with h1 | h1
      · injection h1 with h1a h1b
        exact absurd (h1a.trans hm) hs
      · exact ⟨s, fl, h1, hs, hc⟩
    · cases v with
      | obj fields =>
        rcases he : (coerceFields fields []).2 with _ | e
        · rw [processSamples_cons_obj_none clean root sName fields rest t
            hm he] at hok ⊢
          rw [processSamples_cons_obj_none clean root sName fields rest t'
            hm he]
          by_cases hc : clean sName root = c
          · refine dictGet_processSamples_congr clean root c rest _ _ ?_
            have hL := dictGet_dictSet (dictSet t (clean sName root) [])
              (clean sName root) c ((coerceFields fields []).1)
            have hR := dictGet_dictSet (dictSet t' (clean sName root) [])
              (clean sName root) c ((coerceFields fields []).1)
            rw [hL, hR, if_pos hc.symm, if_pos hc.symm]
          · refine ih _ _ hok ?_
            rcases hocc with ⟨s, fl, hmem, hs, hcc⟩
            rcases List.mem_cons.mp hmem with h1 | h1
            · injection h1 with h1a h1b
              exact absurd (h1a ▸ hcc) hc
            · exact ⟨s, fl, h1, hs, hcc⟩
        · rw [processSamples_cons_obj_some clean root sName fields rest t
            e hm he] at hok
          simp at hok
      | num q =>
        simp only [processSamples, if_neg hm] at hok
        simp at hok
      | str s =>
        simp only [processSamples, if_neg hm] at hok
        simp at hok
      | bool b =>
        simp only [processSamples, if_neg hm] at hok
        simp at hok
      | null =>
        simp only [processSamples, if_neg hm] at hok
        simp at hok
      | arr xs =>
        simp only [processSamples, if_neg hm] at hok
        simp at hok

/-! ## Claims -/

/-- C1: a metric value whose string form parses as a floating-point number is
stored as that number, any other string value is stored unchanged; on the
spec's example input `{"S1": {"NR Aut": "100", "NrX": "5.5", "noCall": "low"}}`
the module yields the record `S1 -> {"NR Aut": 100.0, "NrX": 5.5,
"noCall": "low"}`. -/
theorem C1_string_values_coerced :
    (∀ s q, parseFloat s = some q →
      coerceVal (JsonVal.str s) = Except.ok (Stored.num q))
    ∧ (∀ s, parseFloat s = none →
      coerceVal (JsonVal.str s) = Except.ok (Stored.str s))
    ∧ parse_data cleanId exampleFile [] =
        ([("S1", [("NR Aut", Stored.num 100), ("NrX", Stored.num 5.5),
          ("noCall", Stored.str "low")])], none) := by
  refine ⟨fun s q h => by simp [coerceVal, h],
    fun s h => by simp [coerceVal, h], ?_⟩
  have h : parse_data cleanId exampleFile [] =
      ([("S1", [("NR Aut", Stored.num (mkRat 100 1)),
        ("NrX", Stored.num (mkRat 11 2)),
        ("noCall", Stored.str "low")])], none) := by decide
  rw [h]
  norm_num [Rat.mkRat_eq_divInt, Rat.divInt_eq_div]

/-- Witness for C1: the parseable string "100" is stored as the number 100,
the unparseable string "low" is stored unchanged. -/
theorem C1_string_values_coerced_witness :
    coerceVal (JsonVal.str "100") = Except.ok (Stored.num 100)
    ∧ coerceVal (JsonVal.str "low") = Except.ok (Stored.str "low") :=
  ⟨C1_string_values_coerced.1 "100" 100 (by decide),
   C1_string_values_coerced.2.1 "low" (by decide)⟩

/-- C2 counterexample: on the decoded input `{"S1": {"x": null}}` the
coercion step raises a `TypeError` (`float(None)`) that `except ValueError`
does not catch, so an exception does surface from `parse_data`, refuting the
claim that no value of any JSON type surfaces an exception. -/
theorem C2_counterexample :
    parse_data cleanId
      ⟨"r", some [("S1", JsonVal.obj [("x", JsonVal.null)])]⟩ [] =
      ([("S1", [])], some PyExc.typeError) := by decide

/-- C2 amended: string values never surface an exception (an unparseable
string is stored as-is), numbers and booleans coerce to numbers, but a
`null`, array or object value raises a `TypeError` that is not caught. -/
theorem C2_amended_exception_behaviour :
    (∀ s, coerceVal (JsonVal.str s) =
      Except.ok (match parseFloat s with
        | some q => Stored.num q
        | none => Stored.str s))
    ∧ (∀ q, coerceVal (JsonVal.num q) = Except.ok (Stored.num q))
    ∧ (∀ b, coerceVal (JsonVal.bool b) =
        Except.ok (Stored.num (if b then 1 else 0)))
    ∧ coerceVal JsonVal.null = Except.error PyExc.typeError
    ∧ (∀ xs, coerceVal (JsonVal.arr xs) = Except.error PyExc.typeError)
    ∧ (∀ fs, coerceVal (JsonVal.obj fs) = Except.error PyExc.typeError) := by
  refine ⟨fun s => ?_, fun q => rfl, fun b => rfl, rfl, fun xs => rfl,
    fun fs => rfl⟩
  simp only [coerceVal]
  rcases parseFloat s with _ | q <;> rfl

/-- C3: when the filtered table is empty the module raises `UserWarning`
("skip this module") and issues no data-file write, summary-column call or
bar-chart render; when at least one sample remains no such signal is raised
and all four host calls are issued; with zero discovered files the module
always signals skip. -/
theorem C3_empty_table_skips_module (clean : String → String → String)
    (ignore : String → Bool) (files : List FileF)
    (h : (parseAll clean files []).2 = none) :
    ((runModule clean ignore files).table = [] →
      (runModule clean ignore files).outcome = Outcome.skipModule
        ∧ (runModule clean ignore files).emits = [])
    ∧ ((runModule clean ignore files).table ≠ [] →
      (runModule clean ignore files).outcome ≠ Outcome.skipModule
        ∧ (runModule clean ignore files).emits =
          [Emit.dataFile, Emit.summaryCols, Emit.barplotReads,
            Emit.barplotSnps])
    ∧ runModule clean ignore [] = ⟨[], Outcome.skipModule, []⟩ := by
  have h3 : runModule clean ignore [] = ⟨[], Outcome.skipModule, []⟩ := rfl
  rcases hp : parseAll clean files [] with ⟨tbl, exc⟩
  have hexc : exc = none := by rw [hp] at h; exact h
  subst hexc
  have hrm : runModule clean ignore files =
      if (ignore_samples ignore tbl).isEmpty
      then ⟨ignore_samples ignore tbl, Outcome.skipModule, []⟩
      else ⟨ignore_samples ignore tbl, Outcome.completed,
        [Emit.dataFile, Emit.summaryCols, Emit.barplotReads,
          Emit.barplotSnps]⟩ := by
    simp only [runModule, hp]
  rw [hrm]
  by_cases hE : (ignore_samples ignore tbl).isEmpty
  · rw [if_pos hE]
    have hnil : ignore_samples ignore tbl = [] := List.isEmpty_iff.mp hE
    exact ⟨fun _ => ⟨rfl, rfl⟩, fun hne => absurd hnil hne, h3⟩
  · rw [if_neg hE]
    refine ⟨fun hT => absurd ?_ hE,
      fun _ => ⟨fun hq => Outcome.noConfusion hq, rfl⟩, h3⟩
    have hnil : ignore_samples ignore tbl = [] := hT
    rw [hnil]
    rfl

/-- Witness for C3: zero discovered files yield the skip signal and no host
calls. -/
theorem C3_empty_table_skips_module_witness :
    (runModule cleanId (fun _ => false) []).outcome = Outcome.skipModule
    ∧ (runModule cleanId (fun _ => false) []).emits = [] :=
  (C3_empty_table_skips_module cleanId (fun _ => false) []
    (by decide)).1 (by decide)

/-- C4: when a file contains a (non-metadata) sample whose name cleans to
`c` and its parse completes, the record finally stored under `c` does not
depend on the table accumulated from earlier files: the whole record comes
from the file processed last (take `t' = []` to read it off from that file
alone), with no field-level interleaving. -/
theorem C4_last_write_wins (clean : String → String → String) (f : FileF)
    (t t' : Table) (c : String) (data : List (String × JsonVal))
    (hc : f.content = some data)
    (hok : (parse_data clean f t).2 = none)
    (hocc : ∃ sName fields, (sName, JsonVal.obj fields) ∈ data ∧
      sName ≠ "metadata" ∧ clean sName f.root = c) :
    dictGet (parse_data clean f t).1 c =
      dictGet (parse_data clean f t').1 c := by
  obtain ⟨root, content⟩ := f
  cases hc
  simp only [parse_data] at hok ⊢
  exact dictGet_processSamples_of_mem clean root c data t t' hok hocc

/-- Witness for C4: the record for "S1" after re-parsing a second file is the
same whether or not an earlier file had already stored a record for "S1". -/
theorem C4_last_write_wins_witness :
    dictGet (parse_data cleanId
      ⟨"r", some [("S1", JsonVal.obj [("new", JsonVal.str "2")])]⟩
      [("S1", [("old", Stored.num 1)])]).1 "S1" =
    dictGet (parse_data cleanId
      ⟨"r", some [("S1", JsonVal.obj [("new", JsonVal.str "2")])]⟩ []).1
      "S1" :=
  C4_last_write_wins cleanId _ _ [] "S1" _ rfl (by decide)
    ⟨"S1", [("new", JsonVal.str "2")], List.Mem.head _, by decide, rfl⟩

/-- C5: when `json.load` fails, `parse_data` logs and returns: no exception
propagates, and the table accumulated so far is returned completely
unchanged. -/
theorem C5_decode_failure_atomic (clean : String → String → String)
    (f : FileF) (tbl : Table) (h : f.content = none) :
    parse_data clean f tbl = (tbl, none) := by
  simp only [parse_data, h]

/-- Witness for C5 on a file that fails to decode, with one prior record. -/
theorem C5_decode_failure_atomic_witness :
    parse_data cleanId ⟨"r", none⟩ [("A", [("x", Stored.num 1)])] =
      ([("A", [("x", Stored.num 1)])], none) :=
  C5_decode_failure_atomic cleanId ⟨"r", none⟩ _ rfl

/-- C6: entries under the reserved top-level key "metadata" contribute
nothing to the table, whatever their value: dropping them from the input
leaves the result of the sample loop unchanged, and an input consisting only
of a "metadata" entry leaves the table untouched. -/
theorem C6_metadata_ignored (clean : String → String → String)
    (root : String) :
    (∀ (data : List (String × JsonVal)) (tbl : Table),
      processSamples clean root
          (data.filter (fun p => p.1 != "metadata")) tbl =
        processSamples clean root data tbl)
    ∧ (∀ (v : JsonVal) (tbl : Table),
      processSamples clean root [("metadata", v)] tbl = (tbl, none)) := by
  constructor
  · intro data
    induction data with
    | nil => intro tbl; rfl
    | cons p rest ih =>
      intro tbl
      obtain ⟨sName, v⟩ := p
      by_cases hm : sName = "metadata"
      · rw [processSamples_cons_metadata clean root sName v rest tbl hm]
        have hf : ((sName, v) :: rest).filter (fun p => p.1 != "metadata") =
            rest.filter (fun p => p.1 != "metadata") := by
          simp [List.filter_cons, hm]
        rw [hf]
        exact ih tbl
      · have hf : ((sName, v) :: rest).filter (fun p => p.1 != "metadata") =
            (sName, v) :: rest.filter (fun p => p.1 != "metadata") := by
          simp [List.filter_cons, hm]
        rw [hf]
        cases v with
        | obj fields =>
          rcases he : (coerceFields fields []).2 with _ | e
          · rw [processSamples_cons_obj_none clean root sName fields _ tbl
              hm he, processSamples_cons_obj_none clean root sName fields
              rest tbl hm he]
            exact ih _
          · rw [processSamples_cons_obj_some clean root sName fields _ tbl
              e hm he, processSamples_cons_obj_some clean root sName fields
              rest tbl e hm he]
        | num q => simp only [processSamples, if_neg hm]
        | str s => simp only [processSamples, if_neg hm]
        | bool b => simp only [processSamples, if_neg hm]
        | null => simp only [processSamples, if_neg hm]
        | arr xs => simp only [processSamples, if_neg hm]
  · intro v tbl
    rw [processSamples_cons_metadata clean root "metadata" v [] tbl rfl]
    rfl

/-- C7: after a completed parse starting from an empty table, the table has a
key exactly for each cleaned non-metadata top-level name, and no key occurs
twice (one record per key). -/
theorem C7_one_record_per_key (clean : String → String → String)
    (root : String) (data : List (String × JsonVal))
    (hok : (processSamples clean root data []).2 = none) :
    (∀ c, c ∈ keys (processSamples clean root data []).1 ↔
      ∃ p ∈ data, p.1 ≠ "metadata" ∧ clean p.1 root = c)
    ∧ (keys (processSamples clean root data []).1).Nodup := by
  constructor
  · intro c
    rw [mem_keys_processSamples clean root c data [] hok]
    simp
  · exact nodup_keys_processSamples clean root data [] List.nodup_nil

/-- Witness for C7 on the one-sample input `{"S1": {"x": "low"}}`. -/
theorem C7_one_record_per_key_witness :
    "S1" ∈ keys (processSamples cleanId "r"
      [("S1", JsonVal.obj [("x", JsonVal.str "low")])] []).1
    ∧ (keys (processSamples cleanId "r"
      [("S1", JsonVal.obj [("x", JsonVal.str "low")])] []).1).Nodup := by
  have h := C7_one_record_per_key cleanId "r"
    [("S1", JsonVal.obj [("x", JsonVal.str "low")])] (by decide)
  exact ⟨(h.1 "S1").mpr ⟨("S1", JsonVal.obj [("x", JsonVal.str "low")]),
    List.Mem.head _, by decide, rfl⟩, h.2⟩

/-- C8: the numeric coercion is idempotent on its own output: re-coercing a
stored value (a number stays that number, a string that failed to parse
fails again) returns the stored value itself. -/
theorem C8_coercion_idempotent (v : JsonVal) (w : Stored)
    (h : coerceVal v = Except.ok w) :
    coerceVal (storedToJson w) = Except.ok w := by
  cases v with
  | num q => cases h; rfl
  | bool b => cases h; rfl
  | str s =>
    simp only [coerceVal] at h
    rcases hp : parseFloat s with _ | q
    · rw [hp] at h
      cases h
      simp only [storedToJson, coerceVal, hp]
    · rw [hp] at h
      cases h
      rfl
  | null => cases h
  | arr xs => cases h
  | obj fs => cases h

/-- Witness for C8 at the stored string "low". -/
theorem C8_coercion_idempotent_witness :
    coerceVal (storedToJson (Stored.str "low")) =
      Except.ok (Stored.str "low") :=
  C8_coercion_idempotent (JsonVal.str "low") (Stored.str "low") rfl

/-- C9: the table keeps first-seen insertion order: assigning to an existing
key leaves the key sequence unchanged (the key keeps its position), a new
key is appended at the end, and a `parse_data` call only ever appends new
keys after the existing ones. -/
theorem C9_insertion_order_preserved :
    (∀ (tbl : Table) (k : String) (v : List (String × Stored)),
      keys (dictSet tbl k v) =
        if k ∈ keys tbl then keys tbl else keys tbl ++ [k])
    ∧ (∀ (clean : String → String → String) (f : FileF) (tbl : Table),
      keys tbl <+: keys (parse_data clean f tbl).1) := by
  refine ⟨fun tbl k v => keys_dictSet tbl k v, fun clean f tbl => ?_⟩
  rcases hc : f.content with _ | data
  · simp only [parse_data, hc]
    exact List.prefix_refl _
  · simp only [parse_data, hc]
    exact keys_prefix_processSamples clean f.root data tbl

/-- C10: the reserved-key test `s_name == 'metadata'` is exact and
case-sensitive: any other top-level key, including "Metadata", "METADATA"
and "metadata " (trailing space), is processed as a sample and produces a
record under its cleaned name, while "metadata" itself is skipped. -/
theorem C10_metadata_match_case_sensitive :
    (∀ (clean : String → String → String) (root : String) (tbl : Table)
      (s : String) (v : JsonVal), s ≠ "metadata" →
      clean s root ∈ keys (processSamples clean root [(s, v)] tbl).1)
    ∧ processSamples cleanId "r"
        [("Metadata", JsonVal.obj []), ("METADATA", JsonVal.obj []),
          ("metadata ", JsonVal.obj []), ("metadata", JsonVal.obj [])] [] =
        ([("Metadata", []), ("METADATA", []), ("metadata ", [])], none) := by
  constructor
  · intro clean root tbl s v hs
    cases v with
    | obj fields =>
      rcases he : (coerceFields fields []).2 with _ | e
      · rw [processSamples_cons_obj_none clean root s fields [] tbl hs he]
        simp only [processSamples]
        exact (mem_keys_dictSet _ _ _ _).mpr (Or.inl rfl)
      · rw [processSamples_cons_obj_some clean root s fields [] tbl e hs he]
        exact (mem_keys_dictSet _ _ _ _).mpr (Or.inl rfl)
    | num q =>
      simp only [processSamples, if_neg hs]
      exact (mem_keys_dictSet _ _ _ _).mpr (Or.inl rfl)
    | str s' =>
      simp only [processSamples, if_neg hs]
      exact (mem_keys_dictSet _ _ _ _).mpr (Or.inl rfl)
    | bool b =>
      simp only [processSamples, if_neg hs]
      exact (mem_keys_dictSet _ _ _ _).mpr (Or.inl rfl)
    | null =>
      simp only [processSamples, if_neg hs]
      exact (mem_keys_dictSet _ _ _ _).mpr (Or.inl rfl)
    | arr xs =>
      simp only [processSamples, if_neg hs]
      exact (mem_keys_dictSet _ _ _ _).mpr (Or.inl rfl)
  · decide

/-- Witness for C10 at the key "Metadata". -/
theorem C10_metadata_match_case_sensitive_witness :
    cleanId "Metadata" "r" ∈ keys (processSamples cleanId "r"
      [("Metadata", JsonVal.obj [])] []).1 :=
  C10_metadata_match_case_sensitive.1 cleanId "r" [] "Metadata"
    (JsonVal.obj []) (by decide)

end MultiVCF
